import Mathlib

/-!
Verification of the pwndbg pointer-chain resolver and windbg dump/patch
codec against their natural-language specification.

The embedding shallowly models the two source files the claims are about:

* `src/pwndbg/chain.py` — `get` (the spec's `resolve`) and `format`.
  The memory access port (`pwndbg.memory.poi` reading one pointer-width
  value) is modelled as an abstract function `mem : Nat → Option Nat`,
  where `none` models a `gdb.MemoryError` being raised (the only
  exception the source catches).

* `src/pwndbg/commands/windbg.py` — `dX` (the spec's `dumpMemory`) and
  `eX` (the spec's `writeMemory`), together with `enhex` and the
  left-padding helper `rjust` (Python's `str.rjust`).  Reads of one
  `size`-byte value are again an abstract `read : Nat → Option Nat`;
  writes are modelled by an abstract success predicate
  `writeOk : Nat → List Nat → Bool` plus the list of chunk writes the
  loop actually performed, in order, so that partial-write behaviour is
  observable.  Python's `codecs.decode(_, 'hex')`, which raises on an
  odd-length string or a non-hex character, is `hexDecode` returning
  `Option`.
-/

namespace Pwndbg

/-- The `LIMIT = 5` module constant of `chain.py`. -/
def LIMIT : Nat := 5

/-- The loop body of `chain.get`: `n` remaining iterations of
`for i in range(limit)`, the current `address`, and the accumulated
`result` list.  Appending happens only when the current address occurs
fewer than two times in `result`; after appending, a failed pointer read
(`none`) breaks out of the loop. -/
def getLoop (mem : Nat → Option Nat) : Nat → Nat → List Nat → List Nat
  | 0, _, result => result
  | n + 1, address, result =>
    if 2 ≤ result.count address then result
    else
      match mem address with
      | none => result ++ [address]
      | some next => getLoop mem n next (result ++ [address])

/-- `chain.get(address, limit)`: recursively dereference `address`,
accumulating the addresses visited. -/
def get (mem : Nat → Option Nat) (address : Nat) (limit : Nat) : List Nat :=
  getLoop mem limit address []

/-- The result list only ever grows: the accumulator is an initial
segment of the final result. -/
theorem getLoop_append (mem : Nat → Option Nat) :
    ∀ (n a : Nat) (res : List Nat), ∃ t, getLoop mem n a res = res ++ t := by
  intro n
  induction n with
  | zero => intro a res; exact ⟨[], by simp [getLoop]⟩
  | succ n ih =>
    intro a res
    simp only [getLoop]
    split
    · exact ⟨[], by simp⟩
    · cases h : mem a with
      | none => exact ⟨[a], rfl⟩
      | some next =>
        obtain ⟨t, ht⟩ := ih next (res ++ [a])
        exact ⟨a :: t, by simp [ht]⟩

/-- Each loop iteration appends at most one element. -/
theorem getLoop_length (mem : Nat → Option Nat) :
    ∀ (n a : Nat) (res : List Nat),
      (getLoop mem n a res).length ≤ res.length + n := by
  intro n
  induction n with
  | zero => intro a res; simp [getLoop]
  | succ n ih =>
    intro a res
    simp only [getLoop]
    split
    · omega
    · split
      · simp
      · rename_i next _
        have := ih next (res ++ [a])
        simp only [List.length_append, List.length_singleton] at this
        omega

/-- C4: for every address `A` and limit `L ≥ 1`, `resolve(A, L)` (the
source's `get(A, L)`) returns a sequence of length between 1 and `L`
inclusive whose first element is the starting address `A`. -/
theorem get_length_bounds (mem : Nat → Option Nat) (A L : Nat) (hL : 1 ≤ L) :
    1 ≤ (get mem A L).length ∧ (get mem A L).length ≤ L ∧
      (get mem A L).head? = some A := by
  obtain ⟨n, rfl⟩ : ∃ n, L = n + 1 := ⟨L - 1, by omega⟩
  have hlen : (get mem A (n + 1)).length ≤ n + 1 := by
    have := getLoop_length mem (n + 1) A []
    simpa [get] using this
  have hpre : ∃ t, get mem A (n + 1) = A :: t := by
    unfold get
    simp only [getLoop]
    rw [if_neg (by simp)]
    cases h : mem A with
    | none => exact ⟨[], rfl⟩
    | some next =>
      obtain ⟨t, ht⟩ := getLoop_append mem n next ([] ++ [A])
      exact ⟨t, by simpa using ht⟩
  obtain ⟨t, ht⟩ := hpre
  refine ⟨?_, hlen, ?_⟩ <;> simp [ht]

/-- C4 witness at a concrete memory and limit. -/
theorem get_length_bounds_witness :
    1 ≤ (get (fun a => some (a + 1)) 0 5).length ∧
      (get (fun a => some (a + 1)) 0 5).length ≤ 5 ∧
      (get (fun a => some (a + 1)) 0 5).head? = some 0 :=
  get_length_bounds (fun a => some (a + 1)) 0 5 (by decide)

/-- Once the accumulator already holds two copies of the current
address, the loop exits immediately without appending. -/
theorem getLoop_cycle_stop (mem : Nat → Option Nat) (A : Nat) :
    ∀ n, getLoop mem n A [A, A] = [A, A] := by
  intro n
  cases n with
  | zero => rfl
  | succ n =>
    simp only [getLoop]
    rw [if_pos (by simp [List.count_cons])]

/-- C5: if the value stored at `A` is `A` itself (a self-pointer),
`resolve(A, L)` for every `L ≥ 2` is exactly `[A, A]` — length 2 no
matter how much larger `L` is. -/
theorem get_self_pointer (mem : Nat → Option Nat) (A L : Nat)
    (hmem : mem A = some A) (hL : 2 ≤ L) : get mem A L = [A, A] := by
  obtain ⟨n, rfl⟩ : ∃ n, L = n + 2 := ⟨L - 2, by omega⟩
  unfold get
  simp only [getLoop]
  rw [if_neg (by simp), hmem]
  simp only [List.nil_append, getLoop]
  rw [if_neg (by simp [List.count_cons]), hmem]
  simpa using getLoop_cycle_stop mem A n

/-- C5 witness: self-pointing memory at 3, limit 7. -/
theorem get_self_pointer_witness : get (fun a => some a) 3 7 = [3, 3] :=
  get_self_pointer (fun a => some a) 3 7 rfl (by decide)

/-- The loop preserves the invariant that no address occurs more than
twice in the accumulator: an address is appended only when it occurs at
most once so far. -/
theorem getLoop_count_le (mem : Nat → Option Nat) :
    ∀ (n a : Nat) (res : List Nat), (∀ x, res.count x ≤ 2) →
      ∀ x, (getLoop mem n a res).count x ≤ 2 := by
  intro n
  induction n with
  | zero => intro a res h x; exact h x
  | succ n ih =>
    intro a res h x
    simp only [getLoop]
    split
    · exact h x
    · rename_i hlt
      have hres : ∀ y, (res ++ [a]).count y ≤ 2 := by
        intro y
        have hy2 := h y
        rw [List.count_append]
        rcases eq_or_ne a y with hy | hy
        · rw [List.count_singleton', if_pos hy]
          subst hy
          omega
        · rw [List.count_singleton', if_neg hy]
          omega
      split
      · exact hres x
      · rename_i next _
        exact ih next (res ++ [a]) hres x

/-- C6: in every sequence returned by `resolve`, no address occurs more
than twice — the loop breaks, without appending again, as soon as the
current address already occurs twice in the accumulated result, so the
chain terminates even on pointer cycles. -/
theorem get_count_le (mem : Nat → Option Nat) (A L x : Nat) :
    (get mem A L).count x ≤ 2 :=
  getLoop_count_le mem L A [] (by simp) x

/-- C7: if `A` is unreadable as a pointer, `resolve(A, L) = [A]` for
every `L ≥ 1`; the read failure ends the chain (the model returns a
plain list: the `gdb.MemoryError` is caught inside the loop and never
propagates to the caller). -/
theorem get_unreadable (mem : Nat → Option Nat) (A L : Nat)
    (hmem : mem A = none) (hL : 1 ≤ L) : get mem A L = [A] := by
  obtain ⟨n, rfl⟩ : ∃ n, L = n + 1 := ⟨L - 1, by omega⟩
  unfold get
  simp only [getLoop]
  rw [if_neg (by simp), hmem]
  rfl

/-- C7 witness: fully unreadable memory, start 5, limit 3. -/
theorem get_unreadable_witness : get (fun _ => none) 5 3 = [5] :=
  get_unreadable (fun _ => none) 5 3 rfl (by decide)

/-- `chain.format(value)`: resolve the chain with the module limit,
then pick the "enhanced" terminal description and join the colorized
links.  `enhance` abstracts `pwndbg.enhance.enhance` (the terminal-value
classifier) and `colorize` abstracts the symbol-lookup-plus-color step
applied to every link in `chain[:-1]`, both external collaborators.
`chain[-1]` is `getLastD`, `chain[-2]` is the element at index
`length - 2`. -/
def format (mem : Nat → Option Nat) (enhance colorize : Nat → String)
    (value : Nat) : String :=
  let chain := get mem value LIMIT
  let enhanced :=
    if chain.length = 1 then enhance (chain.getLastD 0)
    else if chain.length < LIMIT then enhance (chain.getD (chain.length - 2) 0)
    else "..."
  if chain.length = 1 then enhanced
  else String.intercalate " --> " (chain.dropLast.map colorize) ++ " <-- " ++ enhanced

/-- C2: `format` performs exactly this case analysis on the resolved
chain: length 1 renders only the classified terminal value of the start
address; length strictly between 1 and the limit passes `chain[-2]` (the
second-to-last address) to the terminal-value classifier; length equal
to the limit renders the truncation marker `"..."` instead of
classifying any terminal value. -/
theorem format_cases (mem : Nat → Option Nat) (enhance colorize : Nat → String)
    (value : Nat) :
    ((get mem value LIMIT).length = 1 →
      format mem enhance colorize value = enhance value) ∧
    (1 < (get mem value LIMIT).length → (get mem value LIMIT).length < LIMIT →
      format mem enhance colorize value =
        String.intercalate " --> " ((get mem value LIMIT).dropLast.map colorize) ++
          " <-- " ++
          enhance ((get mem value LIMIT).getD ((get mem value LIMIT).length - 2) 0)) ∧
    ((get mem value LIMIT).length = LIMIT →
      format mem enhance colorize value =
        String.intercalate " --> " ((get mem value LIMIT).dropLast.map colorize) ++
          " <-- " ++ "...") := by
  refine ⟨?_, ?_, ?_⟩
  · intro h1
    have hhead := (get_length_bounds mem value LIMIT (by decide)).2.2
    have hchain : get mem value LIMIT = [value] := by
      cases hc : get mem value LIMIT with
      | nil => simp [hc] at h1
      | cons a t =>
        rw [hc] at hhead h1
        simp only [List.head?_cons, Option.some.injEq] at hhead
        simp only [List.length_cons] at h1
        have h0 : t = [] := List.eq_nil_of_length_eq_zero (by omega)
        rw [hhead, h0]
    simp [format, hchain]
  · intro h1 h2
    simp only [format]
    rw [if_neg (by omega), if_neg (by omega), if_pos h2]
  · intro h1
    simp only [format]
    rw [if_neg (by rw [h1]; decide), if_neg (by rw [h1]; decide),
      if_neg (by omega)]

/-- C2 witness: memory giving the three-element chain `[0, 1, 2]`
(middle case: the classifier receives `chain[-2] = 1`). -/
theorem format_cases_witness :
    format (fun a => if a = 0 then some 1 else if a = 1 then some 2 else none)
        (fun a => "E" ++ toString a) (fun a => "c" ++ toString a) 0 =
      String.intercalate " --> "
          ((get (fun a => if a = 0 then some 1 else if a = 1 then some 2 else none)
              0 LIMIT).dropLast.map (fun a => "c" ++ toString a)) ++
        " <-- " ++
        ("E" ++
          toString
            ((get (fun a => if a = 0 then some 1 else if a = 1 then some 2 else none)
                0 LIMIT).getD
              ((get (fun a => if a = 0 then some 1 else if a = 1 then some 2 else none)
                  0 LIMIT).length - 2)
              0)) :=
  (format_cases (fun a => if a = 0 then some 1 else if a = 1 then some 2 else none)
      (fun a => "E" ++ toString a) (fun a => "c" ++ toString a) 0).2.1
    (by decide) (by decide)

/-- The read loop of `windbg.dX`: for `i` counting up while `n`
iterations remain, read one `size`-byte value at `address + i * size`;
append on success, break on the first `gdb.MemoryError` (`none`). -/
def dXvaluesAux (read : Nat → Option Nat) (size address : Nat) :
    Nat → Nat → List Nat
  | _, 0 => []
  | i, n + 1 =>
    match read (address + i * size) with
    | some v => v :: dXvaluesAux read size address (i + 1) n
    | none => []

/-- The `values` list accumulated by `windbg.dX(size, address, count)`. -/
def dXvalues (read : Nat → Option Nat) (size address count : Nat) : List Nat :=
  dXvaluesAux read size address 0 count

/-- If reads at offsets `i, i+1, ..., i+k-1` succeed with values
`v (i+t)` and the read at offset `i+k` fails, the loop returns exactly
those `k` values. -/
theorem dXvaluesAux_spec (read : Nat → Option Nat) (size address : Nat)
    (v : Nat → Nat) :
    ∀ (n i k : Nat), k ≤ n →
      (∀ t, t < k → read (address + (i + t) * size) = some (v (i + t))) →
      read (address + (i + k) * size) = none →
      dXvaluesAux read size address i n = (List.range k).map (fun t => v (i + t)) := by
  intro n
  induction n with
  | zero =>
    intro i k hk _ _
    have : k = 0 := by omega
    subst this
    simp [dXvaluesAux]
  | succ n ih =>
    intro i k hk hsome hnone
    cases k with
    | zero =>
      simp only [Nat.add_zero] at hnone
      simp only [dXvaluesAux, hnone]
      simp
    | succ k =>
      have h0 : read (address + i * size) = some (v i) := by
        have := hsome 0 (by omega)
        simpa using this
      simp only [dXvaluesAux, h0]
      have hrec : dXvaluesAux read size address (i + 1) n =
          (List.range k).map (fun t => v (i + 1 + t)) := by
        refine ih (i + 1) k (by omega) ?_ ?_
        · intro t ht
          have := hsome (t + 1) (by omega)
          have harg : i + (t + 1) = i + 1 + t := by omega
          rwa [harg] at this
        · have harg : i + (k + 1) = i + 1 + k := by omega
          rwa [harg] at hnone
      rw [hrec, List.range_succ_eq_map, List.map_cons, List.map_map]
      have hfun : ((fun t => v (i + t)) ∘ Nat.succ) = fun t => v (i + 1 + t) := by
        funext t
        simp only [Function.comp_apply]
        congr 1
        omega
      rw [hfun]
      simp

/-- C8: the dump read loop stops at the first failing read, keeps every
value read before it, and returns the truncated list with no error (in
the source the `gdb.MemoryError` is caught and the loop breaks). -/
theorem dXvalues_truncates (read : Nat → Option Nat) (v : Nat → Nat)
    (size address count k : Nat) (hk : k < count)
    (hsome : ∀ t, t < k → read (address + t * size) = some (v t))
    (hnone : read (address + k * size) = none) :
    dXvalues read size address count = (List.range k).map v := by
  have := dXvaluesAux_spec read size address v count 0 k (by omega)
    (by intro t ht; simpa using hsome t ht) (by simpa using hnone)
  simpa [dXvalues] using this

/-- C8 witness: `dumpMemory(A=0, elementSize=1, count=100)` with only
the 50 bytes at addresses `0..49` mapped yields exactly those 50
values. -/
theorem dXvalues_truncates_witness :
    dXvalues (fun a => if a < 50 then some (a + 100) else none) 1 0 100 =
      (List.range 50).map (fun t => t + 100) :=
  dXvalues_truncates (fun a => if a < 50 then some (a + 100) else none)
    (fun t => t + 100) 1 0 100 50 (by decide) (by decide) (by decide)

/-- Python's `str.rjust(n, c)`: left-pad with `c` up to length `n`
(no-op when the string is already at least that long). -/
def rjust (n : Nat) (c : Char) (s : String) : String :=
  ⟨List.replicate (n - s.length) c ++ s.data⟩

/-- `windbg.enhex(size, value)`: `"%x" % value` (lowercase hex of the
magnitude; the model's values are natural numbers, so `abs` is the
identity) left-padded with `'0'` to `size * 2` digits. -/
def enhex (size value : Nat) : String :=
  rjust (size * 2) '0' ⟨Nat.toDigits 16 value⟩

/-- `windbg.dX(size, address, count)` rendering: the values are grouped
into `ceil(count * size / 16)` rows of capacity `16 / size`, and row `i`
is the space-joined list of the row's address label — `enhex` of
`address + i + 16` at pointer width, exactly as the source computes
it — followed by each value `enhex`-encoded at `size`. -/
def dX (read : Nat → Option Nat) (ptrsize size address count : Nat) :
    List String :=
  let values := dXvalues read size address count
  let n_rows := (count * size + 15) / 16
  let row_sz := 16 / size
  (List.range n_rows).map (fun i =>
    String.intercalate " "
      (enhex ptrsize (address + i + 16) ::
        ((values.drop (i * row_sz)).take row_sz).map (enhex size)))

/-- C1 (failing input): `dumpMemory(address=0, elementSize=1, count=16)`
over memory that reads as zero everywhere, with pointer width 8.  The
single row covers source bytes 0..15, so the claim requires the address
label `address + 16*0 = 0`, i.e. `"0000000000000000"`; the code instead
renders `enhex` of `address + i + 16 = 16`, i.e. `"0000000000000010"`.
The value cells are correctly zero-padded to `elementSize * 2 = 2`
digits. -/
theorem dX_row_label_bug :
    dX (fun _ => some 0) 8 1 0 16 =
      ["0000000000000010 00 00 00 00 00 00 00 00 00 00 00 00 00 00 00 00"] := by
  rfl

/-- Value of a single hex digit, `none` for a non-hex character
(`codecs.decode(_, 'hex')` accepts both cases). -/
def hexDigitVal (c : Char) : Option Nat :=
  if '0' ≤ c ∧ c ≤ '9' then some (c.toNat - '0'.toNat)
  else if 'a' ≤ c ∧ c ≤ 'f' then some (c.toNat - 'a'.toNat + 10)
  else if 'A' ≤ c ∧ c ≤ 'F' then some (c.toNat - 'A'.toNat + 10)
  else none

/-- `codecs.decode(s, 'hex')` on a character list: two digits per output
byte; fails (`none`, modelling the raised error) on an odd-length input
or a non-hex character. -/
def hexDecodeList : List Char → Option (List Nat)
  | [] => some []
  | [_] => none
  | c1 :: c2 :: rest =>
    match hexDigitVal c1, hexDigitVal c2, hexDecodeList rest with
    | some hi, some lo, some tail => some ((hi * 16 + lo) :: tail)
    | _, _, _ => none

/-- `codecs.decode(s, 'hex')` as a byte list. -/
def hexDecode (s : String) : Option (List Nat) :=
  hexDecodeList s.data

/-- How a `windbg.eX` batch can abort: the hex decode raising (odd
length or invalid digit), or `pwndbg.memory.write` raising at a given
target address. -/
inductive WriteError where
  | decodeError : WriteError
  | memoryError : Nat → WriteError
deriving DecidableEq

/-- The write loop of `windbg.eX`: item `i` is left-padded with `'0'` to
`size * 2` characters and hex-decoded when `hx` is set (otherwise taken
as raw bytes), then written as one chunk at `address + i * size`.  The
result is the list of chunk writes actually performed, in order, plus
the error that aborted the batch, if any.  `writeOk` abstracts whether
`pwndbg.memory.write` succeeds for a given chunk. -/
def eXloop (writeOk : Nat → List Nat → Bool) (size address : Nat) (hx : Bool) :
    Nat → List String → List (Nat × List Nat) →
      List (Nat × List Nat) × Option WriteError
  | _, [], acc => (acc, none)
  | i, s :: rest, acc =>
    match (if hx then hexDecode (rjust (size * 2) '0' s)
           else some (s.data.map Char.toNat)) with
    | none => (acc, some WriteError.decodeError)
    | some bytes =>
      if writeOk (address + i * size) bytes then
        eXloop writeOk size address hx (i + 1) rest
          (acc ++ [(address + i * size, bytes)])
      else (acc, some (WriteError.memoryError (address + i * size)))

/-- `windbg.eX(size, address, data, hex)`. -/
def eX (writeOk : Nat → List Nat → Bool) (size address : Nat)
    (data : List String) (hx : Bool) :
    List (Nat × List Nat) × Option WriteError :=
  eXloop writeOk size address hx 0 data []

/-- When every remaining item decodes and every write succeeds, the
loop performs one chunk write per item, at consecutive element-size
strides. -/
theorem eXloop_all_ok (writeOk : Nat → List Nat → Bool) (size address : Nat)
    (dec : Nat → List Nat) (hOk : ∀ a bs, writeOk a bs = true) :
    ∀ (data : List String) (i : Nat) (acc : List (Nat × List Nat)),
      (∀ j, j < data.length →
        hexDecode (rjust (size * 2) '0' (data.getD j "")) = some (dec (i + j))) →
      eXloop writeOk size address true i data acc =
        (acc ++ (List.range data.length).map
          (fun j => (address + (i + j) * size, dec (i + j))), none) := by
  intro data
  induction data with
  | nil => intro i acc _; simp [eXloop]
  | cons s rest ih =>
    intro i acc hdec
    have h0 : hexDecode (rjust (size * 2) '0' s) = some (dec i) := by
      have := hdec 0 (by simp)
      simpa using this
    simp only [eXloop, if_true, h0, hOk (address + i * size) (dec i), if_pos]
    have hrec := ih (i + 1) (acc ++ [(address + i * size, dec i)]) ?_
    · rw [hrec]
      simp only [List.length_cons, List.range_succ_eq_map, List.map_cons,
        List.map_map]
      have hfun : ((fun j => (address + (i + j) * size, dec (i + j))) ∘ Nat.succ) =
          fun j => (address + (i + 1 + j) * size, dec (i + 1 + j)) := by
        funext j
        simp only [Function.comp_apply]
        have h1 : i + (j + 1) = i + 1 + j := by omega
        rw [h1]
      rw [hfun]
      simp
    · intro j hj
      have := hdec (j + 1) (by simpa using Nat.succ_lt_succ hj)
      have h1 : i + (j + 1) = i + 1 + j := by omega
      rw [h1] at this
      simpa using this

/-- C3: with `hex=True` and all writes succeeding, `eX` left-pads the
item at index `j` with `'0'` to `size * 2` characters, hex-decodes it,
and writes the decoded chunk at `address + j * size`. -/
theorem eX_hex_pads_and_writes (writeOk : Nat → List Nat → Bool)
    (size address : Nat) (data : List String) (dec : Nat → List Nat)
    (hdec : ∀ j, j < data.length →
      hexDecode (rjust (size * 2) '0' (data.getD j "")) = some (dec j))
    (hOk : ∀ a bs, writeOk a bs = true) :
    eX writeOk size address data true =
      ((List.range data.length).map (fun j => (address + j * size, dec j)),
        none) := by
  have := eXloop_all_ok writeOk size address dec hOk data 0 []
    (by intro j hj; simpa using hdec j hj)
  simpa [eX] using this

/-- C3 witness: `writeMemory(A=1000, elementSize=4, ["1"], hex)` pads to
`"00000001"` and writes the four bytes `00 00 00 01` at 1000 — not
`0x10000000`, not one byte. -/
theorem eX_hex_pads_and_writes_witness :
    eX (fun _ _ => true) 4 1000 ["1"] true = ([(1000, [0, 0, 0, 1])], none) := by
  have := eX_hex_pads_and_writes (fun _ _ => true) 4 1000 ["1"]
    (fun _ => [0, 0, 0, 1]) (by decide) (fun _ _ => rfl)
  simpa using this

/-- If the items before the failing one decode and write fine, the item
at the failure point decodes but its chunk write fails, then the loop
returns exactly the earlier writes plus a memory error naming the
failing target address — whatever comes after is never examined. -/
theorem eXloop_write_fails (writeOk : Nat → List Nat → Bool)
    (size address : Nat) (dec : Nat → List Nat) :
    ∀ (pre : List String) (s : String) (post : List String) (b : List Nat)
      (i : Nat) (acc : List (Nat × List Nat)),
      (∀ j, j < pre.length →
        hexDecode (rjust (size * 2) '0' (pre.getD j "")) = some (dec (i + j))) →
      (∀ j, j < pre.length →
        writeOk (address + (i + j) * size) (dec (i + j)) = true) →
      hexDecode (rjust (size * 2) '0' s) = some b →
      writeOk (address + (i + pre.length) * size) b = false →
      eXloop writeOk size address true i (pre ++ s :: post) acc =
        (acc ++ (List.range pre.length).map
            (fun j => (address + (i + j) * size, dec (i + j))),
          some (WriteError.memoryError (address + (i + pre.length) * size))) := by
  intro pre
  induction pre with
  | nil =>
    intro s post b i acc _ _ hs hfail
    simp only [List.length_nil, Nat.add_zero] at hfail
    simp only [List.nil_append, eXloop, if_true, hs, hfail]
    simp
  | cons p pre ih =>
    intro s post b i acc hdec hOk hs hfail
    have h0 : hexDecode (rjust (size * 2) '0' p) = some (dec i) := by
      have := hdec 0 (by simp)
      simpa using this
    have hOk0 : writeOk (address + i * size) (dec i) = true := by
      have := hOk 0 (by simp)
      simpa using this
    simp only [List.length_cons] at hfail
    simp only [List.cons_append, eXloop, if_true, h0, hOk0, if_pos]
    have hrec := ih s post b (i + 1) (acc ++ [(address + i * size, dec i)])
      ?_ ?_ hs ?_
    · rw [List.append_eq, hrec]
      simp only [List.length_cons, List.range_succ_eq_map, List.map_cons,
        List.map_map]
      have hfun : ((fun j => (address + (i + j) * size, dec (i + j))) ∘ Nat.succ) =
          fun j => (address + (i + 1 + j) * size, dec (i + 1 + j)) := by
        funext j
        simp only [Function.comp_apply]
        have h1 : i + (j + 1) = i + 1 + j := by omega
        rw [h1]
      rw [hfun]
      have h2 : i + 1 + pre.length = i + (pre.length + 1) := by omega
      rw [h2]
      simp
    · intro j hj
      have := hdec (j + 1) (by simpa using Nat.succ_lt_succ hj)
      have h1 : i + (j + 1) = i + 1 + j := by omega
      rw [h1] at this
      simpa using this
    · intro j hj
      have := hOk (j + 1) (by simpa using Nat.succ_lt_succ hj)
      have h1 : i + (j + 1) = i + 1 + j := by omega
      rw [h1] at this
      exact this
    · have h1 : i + (pre.length + 1) = i + 1 + pre.length := by omega
      rw [h1] at hfail
      exact hfail

/-- C9: if the chunk write for the item at index `i` fails, no item
after index `i` is attempted (the items after the failure point are
arbitrary, even undecodable), the writes for indices before `i` remain
performed, and the failure is surfaced to the caller as a memory error
naming the failing target address. -/
theorem eX_write_failure (writeOk : Nat → List Nat → Bool)
    (size address : Nat) (pre : List String) (s : String) (post : List String)
    (dec : Nat → List Nat) (b : List Nat)
    (hdec : ∀ j, j < pre.length →
      hexDecode (rjust (size * 2) '0' (pre.getD j "")) = some (dec j))
    (hOk : ∀ j, j < pre.length →
      writeOk (address + j * size) (dec j) = true)
    (hs : hexDecode (rjust (size * 2) '0' s) = some b)
    (hfail : writeOk (address + pre.length * size) b = false) :
    eX writeOk size address (pre ++ s :: post) true =
      ((List.range pre.length).map (fun j => (address + j * size, dec j)),
        some (WriteError.memoryError (address + pre.length * size))) := by
  have := eXloop_write_fails writeOk size address dec pre s post b 0 []
    (by intro j hj; simpa using hdec j hj)
    (by intro j hj; simpa using hOk j hj)
    hs (by simpa using hfail)
  simpa [eX] using this

/-- C9 witness: `writeMemory(A=1000, elementSize=4, ["41","42","zz"],
hex)` where only addresses below 1004 are writable: the first item is
written at 1000, the second fails at 1004 and is reported, and the
undecodable third item is never attempted. -/
theorem eX_write_failure_witness :
    eX (fun a _ => decide (a < 1004)) 4 1000 ["41", "42", "zz"] true =
      ([(1000, [0, 0, 0, 65])], some (WriteError.memoryError 1004)) := by
  have := eX_write_failure (fun a _ => decide (a < 1004)) 4 1000
    ["41"] "42" ["zz"] (fun _ => [0, 0, 0, 65]) [0, 0, 0, 66]
    (by decide) (by decide) (by decide) (by decide)
  simpa using this

/-- A successful hex decode consumes exactly two characters per output
byte. -/
theorem hexDecodeList_length : ∀ (l : List Char) (bs : List Nat),
    hexDecodeList l = some bs → 2 * bs.length = l.length
  | [], bs, h => by
    simp only [hexDecodeList, Option.some.injEq] at h
    subst h
    rfl
  | [_], _, h => by
    simp only [hexDecodeList] at h
    exact Option.noConfusion h
  | c1 :: c2 :: rest, bs, h => by
    cases h1 : hexDigitVal c1 with
    | none => simp [hexDecodeList, h1] at h
    | some hi =>
      cases h2 : hexDigitVal c2 with
      | none => simp [hexDecodeList, h1, h2] at h
      | some lo =>
        cases h3 : hexDecodeList rest with
        | none => simp [hexDecodeList, h1, h2, h3] at h
        | some tail =>
          simp only [hexDecodeList, h1, h2, h3, Option.some.injEq] at h
          subst h
          have := hexDecodeList_length rest tail h3
          simp only [List.length_cons]
          omega

/-- C10 counterexample: an item of three hex digits with
`elementSize = 1` is longer than `2 * elementSize` digits, yet the
batch is rejected — `codecs.decode` raises on the odd-length string, so
nothing is written, contradicting "neither truncates nor rejects". -/
theorem eX_long_item_rejected :
    2 * 1 < "123".length ∧
    eX (fun _ _ => true) 1 1000 ["123"] true = ([], some WriteError.decodeError) := by
  constructor
  · decide
  · rfl

/-- C10 amended: with `hex=True`, an item string longer than
`2 * elementSize` hex digits whose decode succeeds (an even number of
digits) is neither truncated nor rejected: the left-padding is a no-op
and the entire string is decoded and written, so that single item
writes `length / 2 > elementSize` bytes starting at its target
address — overlapping the target region of the next item. -/
theorem eX_long_even_item_overflows (size address : Nat) (s : String)
    (bs : List Nat) (hdec : hexDecode s = some bs)
    (hlen : 2 * size < s.length) :
    rjust (size * 2) '0' s = s ∧
    eX (fun _ _ => true) size address [s] true = ([(address, bs)], none) ∧
    size < bs.length := by
  obtain ⟨l⟩ := s
  have hlen' : 2 * size < l.length := hlen
  have hlen2 : 2 * bs.length = l.length := hexDecodeList_length l bs hdec
  have hr : rjust (size * 2) '0' ⟨l⟩ = ⟨l⟩ := by
    unfold rjust
    have h0 : size * 2 - (String.mk l).length = 0 := by
      have hl : (String.mk l).length = l.length := rfl
      omega
    rw [h0]
    simp
  refine ⟨hr, ?_, by omega⟩
  simp [eX, eXloop, hr, hdec]

/-- C10 amended witness: the four-digit item `"0102"` with
`elementSize = 1` decodes whole and writes the two bytes `[1, 2]` at
the target address — one more byte than the element size. -/
theorem eX_long_even_item_overflows_witness :
    rjust (1 * 2) '0' "0102" = "0102" ∧
    eX (fun _ _ => true) 1 7 ["0102"] true = ([(7, [1, 2])], none) ∧
    1 < ([1, 2] : List Nat).length :=
  eX_long_even_item_overflows 1 7 "0102" [1, 2] (by decide) (by decide)

end Pwndbg
